import Mathlib

/-!
Verification of the foodfolder offer-aggregation core: a shallow embedding of
`src/lib/eta.ts`, `src/app/api/eta/search/route.ts` and
`src/app/api/eta/guide/route.ts`, followed by theorems settling the frozen
claims about URL extraction, offer normalization, the search cache, parameter
clamping, and the store coverage ranking.

Conventions of the embedding:
* JavaScript strings are Lean `String`s; character-level processing works on
  `String.toList`.
* JavaScript numbers are rationals (`ℚ`); every arithmetic step performed by
  the embedded code (comparisons, minima, `Math.round` of small quotients) is
  exact on the values involved, so `ℚ` is a faithful model.
* `null`/`undefined` becomes `Option`; dynamically-typed JSON payloads become
  the inductive `JsonVal`.
* Code that can throw is modelled in `Except Unit`; code that cannot throw is
  a total function.
* The process-wide cache and the wall clock become explicit arguments.
-/

namespace Foodfolder

/-- Whitespace test used for the embedding of JavaScript's `\s` class and of
`String.prototype.trim`, restricted to the ASCII whitespace characters that
can occur in the strings this code processes. -/
def isWsCh (c : Char) : Bool :=
  c = ' ' || c = '\t' || c = '\n' || c = '\r' || c = '\x0b' || c = '\x0c'

/-- Embedding of `String.prototype.trim`: drop whitespace on both ends. -/
def jsTrim (s : String) : String :=
  ⟨(((s.toList.dropWhile isWsCh).reverse.dropWhile isWsCh).reverse)⟩

/-- Embedding of `String.prototype.includes` restricted to a needle given as a
character list: `true` iff the needle occurs contiguously in the haystack. -/
def listIncludes (h n : List Char) : Bool :=
  match h with
  | [] => n.isPrefixOf []
  | _ :: t => n.isPrefixOf h || listIncludes t n

/-- Embedding of `String.prototype.includes`. -/
def strIncludes (h n : String) : Bool :=
  listIncludes h.toList n.toList

/-- Embedding of `String.prototype.startsWith`. -/
def strStarts (s p : String) : Bool :=
  p.toList.isPrefixOf s.toList

/-- Embedding of `url.replace(/&amp;/g, "&")` from `pushUrl` in
`src/lib/eta.ts`: replace every (left-to-right, non-overlapping) occurrence of
the five characters `&amp;` by `&`. -/
def decodeAmpList : List Char → List Char
  | '&' :: 'a' :: 'm' :: 'p' :: ';' :: rest => '&' :: decodeAmpList rest
  | c :: rest => c :: decodeAmpList rest
  | [] => []

/-- String form of `decodeAmpList`. -/
def decodeAmp (s : String) : String :=
  ⟨decodeAmpList s.toList⟩

/-- State threaded through the URL extractor of
`extractOfferUrlsFromSearchHtml`: the emitted list `out` and the
deduplication set `seen` (modelled as a list with the same members). -/
structure ExtractState where
  out : List String
  seen : List String
deriving Repr, DecidableEq

/-- Embedding of the `pushUrl` closure in `extractOfferUrlsFromSearchHtml`
(`src/lib/eta.ts`): trim the candidate, decode `&amp;`, resolve root-relative
URLs against `https://etilbudsavis.dk`, then keep the URL only if it is
on-domain, carries `?publication=` and `&offer=`/`offer=`, and has not been
seen before. -/
def pushUrlChecks (st : ExtractState) (url : String) : ExtractState :=
  if ¬ strStarts url "https://etilbudsavis.dk/" then st
  else if ¬ strIncludes url "?publication=" then st
  else if ¬ (strIncludes url "&offer=" || strIncludes url "offer=") then st
  else if url ∈ st.seen then st
  else ⟨st.out ++ [url], st.seen ++ [url]⟩

/-- Entry point of `pushUrl`: reject the empty candidate, trim, decode
`&amp;`, resolve root-relative candidates, then run the checks. -/
def pushUrl (st : ExtractState) (u : String) : ExtractState :=
  if u = "" then st else
  let url0 := decodeAmp (jsTrim u)
  let url := if strStarts url0 "/" then "https://etilbudsavis.dk" ++ url0 else url0
  pushUrlChecks st url

/-- Embedding of `extractOfferUrlsFromSearchHtml` (`src/lib/eta.ts`). The
three candidate-producing strategies (JSON-LD item lists, `href` attributes,
raw URL-shaped substrings) are regex scans whose only interaction with the
result is that every candidate string they yield is passed to `pushUrl` in
order; the extractor is therefore embedded as the `pushUrl` fold over the
combined candidate list, and theorems quantify over all candidate lists,
hence over all HTML inputs. -/
def extractOfferUrlsFromSearchHtml (candidates : List String) : List String :=
  (candidates.foldl pushUrl ⟨[], []⟩).out

/-- `listIncludes` decides contiguous-substring occurrence. -/
lemma listIncludes_iff_infix (h n : List Char) : listIncludes h n = true ↔ n <:+: h := by
  induction h with
  | nil =>
    simp [listIncludes, List.isPrefixOf_iff_prefix, List.prefix_nil, List.infix_nil]
  | cons a t ih =>
    rw [List.infix_cons_iff]
    simp [listIncludes, List.isPrefixOf_iff_prefix, ih, Bool.or_eq_true]

/-- Monotonicity of `strIncludes` in the needle: if `b` occurs inside `a`
then any string containing `a` contains `b`. -/
lemma strIncludes_of_infix {u a b : String} (hab : b.toList <:+: a.toList)
    (h : strIncludes u a = true) : strIncludes u b = true := by
  rw [strIncludes, listIncludes_iff_infix] at h ⊢
  exact hab.trans h

/-- The property every extracted URL is claimed to satisfy: on-domain, and
carrying the `publication` and `offer` query parameters. -/
def extractedUrlOk (u : String) : Prop :=
  strStarts u "https://etilbudsavis.dk/" = true ∧
  strIncludes u "publication=" = true ∧
  strIncludes u "offer=" = true

/-- Invariant maintained by `pushUrl`: the seen-set mirrors the output, the
output is duplicate-free, and every emitted URL satisfies `extractedUrlOk`. -/
def extractInv (st : ExtractState) : Prop :=
  st.seen = st.out ∧ st.out.Nodup ∧ ∀ u ∈ st.out, extractedUrlOk u

lemma pushUrlChecks_inv (st : ExtractState) (url : String) (hi : extractInv st) :
    extractInv (pushUrlChecks st url) := by
  obtain ⟨hseen, hnd, hok⟩ := hi
  unfold pushUrlChecks
  split
  · exact ⟨hseen, hnd, hok⟩
  split
  · exact ⟨hseen, hnd, hok⟩
  split
  · exact ⟨hseen, hnd, hok⟩
  split
  · exact ⟨hseen, hnd, hok⟩
  next h1 h2 h3 h4 =>
    rw [not_not] at h1 h2 h3
    refine ⟨by rw [hseen], ?_, ?_⟩
    · rw [List.nodup_append]
      refine ⟨hnd, List.nodup_singleton _, ?_⟩
      intro x hx hx1
      rw [List.mem_singleton] at hx1
      subst hx1
      exact h4 (hseen ▸ hx)
    · intro v hv
      rcases List.mem_append.1 hv with hv | hv
      · exact hok v hv
      · rw [List.mem_singleton] at hv
        subst hv
        refine ⟨h1, ?_, ?_⟩
        · refine strIncludes_of_infix ?_ h2
          exact ⟨['?'], [], by decide⟩
        · rw [Bool.or_eq_true] at h3
          rcases h3 with h | h
          · refine strIncludes_of_infix ?_ h
            exact ⟨['&'], [], by decide⟩
          · exact h

lemma pushUrl_inv (st : ExtractState) (u : String) (hi : extractInv st) :
    extractInv (pushUrl st u) := by
  unfold pushUrl
  split
  · exact hi
  exact pushUrlChecks_inv _ _ hi

lemma foldl_pushUrl_inv (cands : List String) (st : ExtractState)
    (hi : extractInv st) : extractInv (cands.foldl pushUrl st) := by
  induction cands generalizing st with
  | nil => exact hi
  | cons c rest ih => exact ih _ (pushUrl_inv st c hi)

/-- C3: for every HTML input (hence every candidate list the three scanning
strategies can produce), every URL returned by the extractor starts with
`https://etilbudsavis.dk/` and contains the substrings `publication=` and
`offer=`, and the returned list has no duplicates. -/
theorem extractOfferUrls_on_domain_with_params_nodup (candidates : List String) :
    (extractOfferUrlsFromSearchHtml candidates).Nodup ∧
    ∀ u ∈ extractOfferUrlsFromSearchHtml candidates,
      strStarts u "https://etilbudsavis.dk/" = true ∧
      strIncludes u "publication=" = true ∧
      strIncludes u "offer=" = true := by
  have h := foldl_pushUrl_inv candidates ⟨[], []⟩ ⟨rfl, List.nodup_nil, by simp⟩
  exact ⟨h.2.1, h.2.2⟩

/-- Witness for C3 at a concrete candidate list: a root-relative candidate is
resolved on-domain, emitted once, and satisfies all three checks. -/
theorem extractOfferUrls_on_domain_with_params_nodup_witness :
    (extractOfferUrlsFromSearchHtml ["/x?publication=1&offer=2"]).Nodup ∧
    (strStarts "https://etilbudsavis.dk/x?publication=1&offer=2"
        "https://etilbudsavis.dk/" = true ∧
      strIncludes "https://etilbudsavis.dk/x?publication=1&offer=2"
        "publication=" = true ∧
      strIncludes "https://etilbudsavis.dk/x?publication=1&offer=2"
        "offer=" = true) := by
  have h := extractOfferUrls_on_domain_with_params_nodup ["/x?publication=1&offer=2"]
  exact ⟨h.1, h.2 "https://etilbudsavis.dk/x?publication=1&offer=2" (by decide)⟩

/-! ## The `/api/eta/search` route: parameter parsing, cache, handler -/

/-- Digit test for the embeddings of `parseInt` and of the `\d` regex
class. -/
def isDigitCh (c : Char) : Bool :=
  '0' ≤ c && c ≤ '9'

/-- Numeric value of a digit run (decimal). -/
def digitsVal (l : List Char) : ℕ :=
  l.foldl (fun acc c => 10 * acc + (c.toNat - '0'.toNat)) 0

/-- Embedding of `parseInt(s, 10)`: skip leading whitespace, read an optional
sign and a leading run of decimal digits, ignore everything after it; `none`
models the `NaN` result when no digit is found. -/
def parseIntJS (s : String) : Option Int :=
  let l := s.toList.dropWhile isWsCh
  let (neg, l') : Bool × List Char :=
    match l with
    | '-' :: t => (true, t)
    | '+' :: t => (false, t)
    | t => (false, t)
  let ds := l'.takeWhile isDigitCh
  if ds = [] then none
  else some (if neg then -(digitsVal ds : Int) else (digitsVal ds : Int))

/-- Embedding of the `limit` computation in the search route's `GET`
(`src/app/api/eta/search/route.ts`):
`Math.max(1, Math.min(80, parseInt(url.searchParams.get("limit") || "40", 10) || 40))`.
The argument is the raw query parameter (`none` when absent); `|| "40"` maps
an absent or empty parameter to the default string, and `|| 40` maps a `NaN`
or `0` parse result to the default number. -/
def effLimit (p : Option String) : Int :=
  let s := match p with
    | none => "40"
    | some s => if s = "" then "40" else s
  let v : Int := match parseIntJS s with
    | none => 40
    | some v => if v = 0 then 40 else v
  max 1 (min 80 v)

/-- Embedding of the `delayMs` computation in the search route's `GET`:
`Math.max(0, Math.min(1000, parseInt(url.searchParams.get("delayMs") || "120", 10) || 120))`. -/
def effDelay (p : Option String) : Int :=
  let s := match p with
    | none => "120"
    | some s => if s = "" then "120" else s
  let v : Int := match parseIntJS s with
    | none => 120
    | some v => if v = 0 then 120 else v
  max 0 (min 1000 v)

/-- The `kind` discriminator of an offer: `"offer"` when a price is present,
`"promotion"` otherwise. -/
inductive OfferKind where
  | offer
  | promotion
deriving Repr, DecidableEq

/-- Embedding of the exported `EtaOffer` type of `src/lib/eta.ts` (the shape
the search and guide routes consume). Prices are exact rationals. -/
structure EtaOffer where
  sourceUrl : String
  store : Option String
  publication : Option String
  offerId : Option String
  publicId : Option String
  name : Option String
  price : Option ℚ
  currency : Option String
  unitPrice : Option ℚ
  unitPriceUnit : Option String
  validFrom : Option String
  validThrough : Option String
  image : Option String
  kind : OfferKind
  discountPercent : Option ℕ
deriving Repr, DecidableEq

/-- The `counts` object of the search route's response payload. -/
structure SearchCounts where
  total : ℕ
  offers : ℕ
  promotions : ℕ
deriving Repr, DecidableEq

/-- Embedding of the search route's `ApiResponse` payload. -/
structure SearchResp where
  q : String
  cached : Bool
  counts : SearchCounts
  offers : List EtaOffer
  promotions : List EtaOffer
deriving Repr, DecidableEq

/-- One entry of the module-level cache: insertion time and stored payload. -/
structure CacheEntry where
  t : Int
  data : SearchResp
deriving Repr, DecidableEq

/-- The process-wide cache `globalThis.__ETA_CACHE__`, a `Map` embedded as an
association list in insertion order. -/
abbrev EtaCache := List (String × CacheEntry)

/-- `Map.prototype.get`. -/
def cacheGet (c : EtaCache) (k : String) : Option CacheEntry :=
  (c.find? (fun p => p.1 = k)).map (·.2)

/-- `Map.prototype.set`: overwrite in place when the key exists, append
otherwise. -/
def cacheSet (c : EtaCache) (k : String) (e : CacheEntry) : EtaCache :=
  if c.any (fun p => p.1 = k) then
    c.map (fun p => if p.1 = k then (k, e) else p)
  else c ++ [(k, e)]

/-- `CACHE_TTL_MS = 5 * 60 * 1000` from `src/app/api/eta/search/route.ts`. -/
def CACHE_TTL_MS : Int := 5 * 60 * 1000

/-- The fall-through path of the search route's `GET` (no valid cache hit):
call the orchestrator, split the offers into priced offers and priceless
promotions, build the payload with `cached := false`, store it, and report
that an upstream fetch happened. `upstream` is the offer list
`etaSearchOffers` would deliver for this request. -/
def searchFetch (cache : EtaCache) (cacheKey q : String) (now : Int)
    (upstream : List EtaOffer) : SearchResp × EtaCache × Bool :=
  let offers := upstream.filter (fun o => o.price ≠ none)
  let promotions := upstream.filter (fun o => o.price = none)
  let payload : SearchResp :=
    { q := q, cached := false,
      counts := ⟨offers.length + promotions.length, offers.length, promotions.length⟩,
      offers := offers, promotions := promotions }
  (payload, cacheSet cache cacheKey ⟨now, payload⟩, true)

/-- Embedding of the search route's `GET` handler
(`src/app/api/eta/search/route.ts`). The cache and the clock (`now`, in
milliseconds) are explicit; `upstream` is the offer list `etaSearchOffers`
would deliver if it were called for this request. The result is the JSON
payload, the cache afterwards, and whether an upstream fetch happened. -/
def searchGET (cache : EtaCache) (qOpt limitOpt delayOpt : Option String)
    (now : Int) (upstream : List EtaOffer) : SearchResp × EtaCache × Bool :=
  let q := jsTrim (qOpt.getD "")
  let limit := effLimit limitOpt
  let delayMs := effDelay delayOpt
  if q = "" then
    ({ q := "", cached := false, counts := ⟨0, 0, 0⟩, offers := [], promotions := [] },
     cache, false)
  else
    let cacheKey := q ++ "::" ++ toString limit ++ "::" ++ toString delayMs
    match cacheGet cache cacheKey with
    | some e =>
      if now - e.t < CACHE_TTL_MS then (e.data, cache, false)
      else searchFetch cache cacheKey q now upstream
    | none => searchFetch cache cacheKey q now upstream

lemma parseIntJS_empty : parseIntJS "" = none := by decide

lemma parseIntJS_ne_empty {s : String} {v : Int} (h : parseIntJS s = some v) :
    s ≠ "" := by
  intro hs
  subst hs
  rw [parseIntJS_empty] at h
  exact Option.noConfusion h

/-- C8 counterexample: a supplied `limit` of `0` is not clamped to `1` and a
supplied `delayMs` of `0` is not accepted as `0`; `parseInt(...) || default`
treats the parsed `0` as falsy, so both fall back to their defaults. -/
theorem searchParams_zero_counterexample :
    effLimit (some "0") = 40 ∧ effDelay (some "0") = 120 ∧
    effLimit (some "0") ≠ 1 ∧ effDelay (some "0") ≠ 0 := by
  decide

/-- C8 amended: the effective `limit` is the supplied parameter clamped to
`[1,80]` and the effective `delayMs` the supplied parameter clamped to
`[0,1000]`, except that an absent, empty, unparseable, or *zero* parameter
falls back to the defaults 40 and 120 (the code defaults on `0` because of
`parseInt(...) || default`). -/
theorem searchParams_clamp_amended :
    (effLimit none = 40 ∧ effDelay none = 120) ∧
    (effLimit (some "") = 40 ∧ effDelay (some "") = 120) ∧
    (∀ s, parseIntJS s = none → effLimit (some s) = 40 ∧ effDelay (some s) = 120) ∧
    (∀ s v, parseIntJS s = some v → v ≠ 0 →
      effLimit (some s) = max 1 (min 80 v) ∧
      effDelay (some s) = max 0 (min 1000 v)) ∧
    (∀ s, parseIntJS s = some 0 → effLimit (some s) = 40 ∧ effDelay (some s) = 120) := by
  refine ⟨by decide, by decide, ?_, ?_, ?_⟩
  · intro s hp
    by_cases hs : s = ""
    · subst hs
      decide
    · simp [effLimit, effDelay, hs, hp]
  · intro s v hp hv
    have hs : s ≠ "" := parseIntJS_ne_empty hp
    simp [effLimit, effDelay, hs, hp, hv]
  · intro s hp
    have hs : s ≠ "" := parseIntJS_ne_empty hp
    simp [effLimit, effDelay, hs, hp]

/-- Witness for C8 amended at concrete parameters: unparseable `"abc"`
defaults, `"200"` clamps to 80, `"7"` stays 7, and `"0"` defaults. -/
theorem searchParams_clamp_amended_witness :
    (effLimit (some "abc") = 40 ∧ effDelay (some "abc") = 120) ∧
    (effLimit (some "200") = max 1 (min 80 200) ∧
      effDelay (some "200") = max 0 (min 1000 200)) ∧
    (effLimit (some "7") = max 1 (min 80 7) ∧
      effDelay (some "7") = max 0 (min 1000 7)) ∧
    (effLimit (some "0") = 40 ∧ effDelay (some "0") = 120) :=
  ⟨searchParams_clamp_amended.2.2.1 "abc" (by decide),
   searchParams_clamp_amended.2.2.2.1 "200" 200 (by decide) (by decide),
   searchParams_clamp_amended.2.2.2.1 "7" 7 (by decide) (by decide),
   searchParams_clamp_amended.2.2.2.2 "0" (by decide)⟩

lemma find?_map_replace (k : String) (e : CacheEntry) (c : EtaCache)
    (h : c.any (fun p => p.1 = k) = true) :
    (c.map (fun p => if p.1 = k then (k, e) else p)).find? (fun p => p.1 = k)
      = some (k, e) := by
  induction c with
  | nil => simp at h
  | cons p t ih =>
    by_cases hp : p.1 = k
    · simp [hp]
    · rw [List.any_cons] at h
      simp only [hp, decide_eq_true_eq, Bool.or_eq_true, false_or] at h
      simp only [List.map_cons, if_neg hp]
      rw [List.find?_cons_of_neg _ (by simpa using hp)]
      exact ih h

lemma find?_eq_none_of_not_any (k : String) (c : EtaCache)
    (h : c.any (fun p => p.1 = k) = false) :
    c.find? (fun p => p.1 = k) = none := by
  induction c with
  | nil => rfl
  | cons p t ih =>
    rw [List.any_cons, Bool.or_eq_false_iff] at h
    rw [List.find?_cons_of_neg _ (by simp [decide_eq_false_iff_not.1 h.1])]
    exact ih h.2

/-- `Map.set` followed by `Map.get` at the same key yields the new entry. -/
lemma cacheGet_cacheSet_self (c : EtaCache) (k : String) (e : CacheEntry) :
    cacheGet (cacheSet c k e) k = some e := by
  unfold cacheGet cacheSet
  by_cases h : c.any (fun p => p.1 = k) = true
  · rw [if_pos h, find?_map_replace k e c h]
    rfl
  · rw [if_neg h, List.find?_append,
      find?_eq_none_of_not_any k c (Bool.not_eq_true _ ▸ h)]
    simp

/-- C4: repeating a search with identical `q`, `limit` and `delayMs` within
the 5-minute TTL of a first request that performed an upstream fetch returns
exactly the payload of the first response, performs no upstream fetch (the
second upstream argument is arbitrary and unused), and leaves the cache
unchanged. -/
theorem search_repeat_within_ttl_cached
    (cache : EtaCache) (qOpt limitOpt delayOpt : Option String)
    (t0 t1 : Int) (up1 up2 : List EtaOffer)
    (hq : jsTrim (qOpt.getD "") ≠ "")
    (hdt : t1 - t0 < CACHE_TTL_MS)
    (hfetch : (searchGET cache qOpt limitOpt delayOpt t0 up1).2.2 = true) :
    (searchGET (searchGET cache qOpt limitOpt delayOpt t0 up1).2.1
        qOpt limitOpt delayOpt t1 up2).1
      = (searchGET cache qOpt limitOpt delayOpt t0 up1).1 ∧
    (searchGET (searchGET cache qOpt limitOpt delayOpt t0 up1).2.1
        qOpt limitOpt delayOpt t1 up2).2.2 = false ∧
    (searchGET (searchGET cache qOpt limitOpt delayOpt t0 up1).2.1
        qOpt limitOpt delayOpt t1 up2).2.1
      = (searchGET cache qOpt limitOpt delayOpt t0 up1).2.1 := by
  unfold searchGET
  rw [if_neg hq, if_neg hq]
  dsimp only
  rcases hhit : cacheGet cache
      (jsTrim (qOpt.getD "") ++ "::" ++ toString (effLimit limitOpt) ++ "::"
        ++ toString (effDelay delayOpt)) with _ | e
  · unfold searchFetch
    dsimp only
    rw [cacheGet_cacheSet_self]
    dsimp only
    rw [if_pos hdt]
    exact ⟨rfl, rfl, rfl⟩
  · dsimp only
    by_cases hT : t0 - e.t < CACHE_TTL_MS
    · exfalso
      revert hfetch
      unfold searchGET
      rw [if_neg hq]
      dsimp only
      rw [hhit]
      dsimp only
      rw [if_pos hT]
      simp
    · rw [if_neg hT]
      unfold searchFetch
      dsimp only
      rw [cacheGet_cacheSet_self]
      dsimp only
      rw [if_pos hdt]
      exact ⟨rfl, rfl, rfl⟩

/-- Witness for C4 at a concrete scenario: empty cache, query `"mælk"`,
default parameters, first call at time 0, repeat at time 1000 with a
different upstream oracle. -/
theorem search_repeat_within_ttl_cached_witness :
    (searchGET (searchGET [] (some "mælk") none none 0 []).2.1
        (some "mælk") none none 1000 []).1
      = (searchGET [] (some "mælk") none none 0 []).1 ∧
    (searchGET (searchGET [] (some "mælk") none none 0 []).2.1
        (some "mælk") none none 1000 []).2.2 = false ∧
    (searchGET (searchGET [] (some "mælk") none none 0 []).2.1
        (some "mælk") none none 1000 []).2.1
      = (searchGET [] (some "mælk") none none 0 []).2.1 :=
  search_repeat_within_ttl_cached [] (some "mælk") none none 0 1000 [] []
    (by decide) (by decide) (by decide)

/-- All payloads stored in the cache carry `cached = false`. -/
def cacheAllFalse (c : EtaCache) : Prop :=
  ∀ kv ∈ c, kv.2.data.cached = false

lemma cacheAllFalse_set {c : EtaCache} {k : String} {e : CacheEntry}
    (hc : cacheAllFalse c) (he : e.data.cached = false) :
    cacheAllFalse (cacheSet c k e) := by
  intro kv hkv
  unfold cacheSet at hkv
  split at hkv
  · rcases List.mem_map.1 hkv with ⟨p, hp, hpe⟩
    by_cases hpk : p.1 = k
    · rw [if_pos hpk] at hpe
      rw [← hpe]
      exact he
    · rw [if_neg hpk] at hpe
      exact hpe ▸ hc p hp
  · rcases List.mem_append.1 hkv with h | h
    · exact hc kv h
    · rw [List.mem_singleton] at h
      subst h
      exact he

lemma cacheGet_mem {c : EtaCache} {k : String} {e : CacheEntry}
    (h : cacheGet c k = some e) : ∃ kv ∈ c, kv.2 = e := by
  unfold cacheGet at h
  rcases hf : c.find? (fun p => p.1 = k) with _ | p
  · rw [hf] at h
    exact Option.noConfusion h
  · rw [hf] at h
    exact ⟨p, List.mem_of_find?_eq_some hf, Option.some.inj h⟩

/-- C10: every response of the search route carries `cached = false` — the
stored payload is written with `cached := false` and returned unchanged on a
hit — and the property that all cache entries carry `cached = false` is
preserved. -/
theorem search_cached_flag_always_false
    (cache : EtaCache) (qOpt limitOpt delayOpt : Option String)
    (now : Int) (upstream : List EtaOffer)
    (hc : cacheAllFalse cache) :
    (searchGET cache qOpt limitOpt delayOpt now upstream).1.cached = false ∧
    cacheAllFalse (searchGET cache qOpt limitOpt delayOpt now upstream).2.1 := by
  unfold searchGET
  dsimp only
  split
  · exact ⟨rfl, hc⟩
  rcases hhit : cacheGet cache
      (jsTrim (qOpt.getD "") ++ "::" ++ toString (effLimit limitOpt) ++ "::"
        ++ toString (effDelay delayOpt)) with _ | e
  · exact ⟨rfl, cacheAllFalse_set hc rfl⟩
  · dsimp only
    split
    · obtain ⟨kv, hkv, hkve⟩ := cacheGet_mem hhit
      exact ⟨hkve ▸ hc kv hkv, hc⟩
    · exact ⟨rfl, cacheAllFalse_set hc rfl⟩

/-- Witness for C10 at a concrete call: empty cache, query `"løg"`. -/
theorem search_cached_flag_always_false_witness :
    (searchGET [] (some "løg") none none 0 []).1.cached = false ∧
    cacheAllFalse (searchGET [] (some "løg") none none 0 []).2.1 :=
  search_cached_flag_always_false [] (some "løg") none none 0 []
    (by intro kv hkv; exact absurd hkv (List.not_mem_nil kv))

/-! ## Decoded JSON payloads and the Offer Normalizer (`src/lib/eta.ts`) -/

/-- A decoded JSON value, the runtime shape of the `payload: any` argument of
`normalizeOfferPayload`. Object bindings are kept in order; `JSON.parse`
never produces duplicate keys, and lookups read the first binding. -/
inductive JsonVal where
  | null
  | bool (b : Bool)
  | num (q : ℚ)
  | str (s : String)
  | arr (xs : List JsonVal)
  | obj (fields : List (String × JsonVal))

/-- JavaScript truthiness on decoded JSON values (no `NaN`: `JSON.parse`
never yields it). -/
def jsFalsy : JsonVal → Bool
  | .null => true
  | .bool b => !b
  | .num q => q = 0
  | .str s => s = ""
  | .arr _ => false
  | .obj _ => false

/-- Property read `v?.k`: `some` the bound value (which may be JSON `null`)
when `v` is an object binding `k`, `none` (JavaScript `undefined`) otherwise.
The primitive prototype properties of strings and arrays are never among the
keys this code reads. -/
def jGet : JsonVal → String → Option JsonVal
  | .obj fs, k => (fs.find? (fun p => p.1 = k)).map (·.2)
  | _, _ => none

/-- `a ?? b` on optional JSON values, `none`/JSON `null` both being nullish. -/
def jjOr : Option JsonVal → Option JsonVal → Option JsonVal
  | none, b => b
  | some .null, b => b
  | some v, _ => some v

/-- Collapse a JSON value into the optional convention (`null ↦ none`), the
effect of a trailing `?? null`. -/
def vOpt : JsonVal → Option JsonVal
  | .null => none
  | v => some v

/-- Embedding of `pick(obj, path)` from `src/lib/eta.ts`: walk the field
path, returning JSON `null` when the current value is falsy or not an
object, or when the key is absent (the trailing `?? null`). -/
def jPick (v : JsonVal) : List String → JsonVal
  | [] => v
  | k :: rest =>
    if jsFalsy v then .null
    else match v with
      | .obj fs =>
        match fs.find? (fun p => p.1 = k) with
        | some p => jPick p.2 rest
        | none => .null
      | _ => .null

/-- First-occurrence-only `x.trim().replace(",", ".")` step of `toFloat`. -/
def replaceFirstComma : List Char → List Char
  | [] => []
  | ',' :: t => '.' :: t
  | c :: t => c :: replaceFirstComma t

/-- Model of the JavaScript `Number(string)` conversion restricted to finite
results: an optional sign, an integer part and/or a fractional part, and an
optional decimal exponent; anything else (including `Infinity`, which
`toFloat` discards as non-finite anyway) gives `none`. The input is already
trimmed. -/
def parseDecimal (l : List Char) : Option ℚ :=
  let (sign, l1) : ℚ × List Char :=
    match l with
    | '-' :: t => (-1, t)
    | '+' :: t => (1, t)
    | t => (1, t)
  let ds := l1.takeWhile isDigitCh
  let r1 := l1.dropWhile isDigitCh
  let (fs, r2) : List Char × List Char :=
    match r1 with
    | '.' :: t => (t.takeWhile isDigitCh, t.dropWhile isDigitCh)
    | _ => ([], r1)
  if ds = [] ∧ fs = [] then none
  else
    let mantissa : ℚ := (digitsVal ds : ℚ) + (digitsVal fs : ℚ) / 10 ^ fs.length
    match r2 with
    | [] => some (sign * mantissa)
    | 'e' :: t => parseExpPart (sign * mantissa) t
    | 'E' :: t => parseExpPart (sign * mantissa) t
    | _ => none
where
  parseExpPart (m : ℚ) (t : List Char) : Option ℚ :=
    let (eneg, t1) : Bool × List Char :=
      match t with
      | '-' :: t' => (true, t')
      | '+' :: t' => (false, t')
      | t' => (false, t')
    let eds := t1.takeWhile isDigitCh
    if eds = [] ∨ t1.dropWhile isDigitCh ≠ [] then none
    else some (if eneg then m / 10 ^ digitsVal eds else m * 10 ^ digitsVal eds)

/-- Embedding of `toFloat` from `src/lib/eta.ts` on an optional JSON value
(`none` being `undefined`): `null`/`undefined` give `null`, numbers pass
through (always finite here), strings are trimmed, get their first comma
replaced by a dot, and are converted (`Number("")` is `0`), everything else
gives `null`. -/
def toFloat : Option JsonVal → Option ℚ
  | none => none
  | some .null => none
  | some (.num q) => some q
  | some (.str s) =>
    let t := replaceFirstComma (jsTrim s).toList
    if t = [] then some 0 else parseDecimal t
  | some _ => none

/-- `toFloat` applied to a (non-optional) value such as a `pick` result. -/
def toFloatV (v : JsonVal) : Option ℚ :=
  toFloat (some v)

/-- The parts of a parsed `new URL(...)` object this code reads. -/
structure JsURL where
  pathname : String
  search : List (String × String)
deriving Repr, DecidableEq

/-- Split a character list at every occurrence of `c`. -/
def splitOnCh (c : Char) : List Char → List (List Char)
  | [] => [[]]
  | x :: t =>
    match splitOnCh c t with
    | [] => [[x]]
    | h :: rest => if x = c then [] :: h :: rest else (x :: h) :: rest

/-- One `name=value` segment of a query string (no `=` means empty value). -/
def parseQueryPair (seg : List Char) : String × String :=
  (⟨seg.takeWhile (· ≠ '=')⟩,
    match seg.dropWhile (· ≠ '=') with
    | _ :: v => ⟨v⟩
    | [] => "")

/-- Model of the WHATWG `new URL(input)` parser used by
`normalizeOfferPayload`, restricted to absolute `http(s)` URLs — the only
kind this repository ever feeds it, since every `sourceUrl` has passed
`pushUrl`'s `https://etilbudsavis.dk/` check. A string without such a
scheme and a nonempty host (for example the empty string) fails to parse,
exactly where `new URL` throws. Query values stay percent-encoded; the code
treats them as opaque identifiers. -/
def parseURL (s : String) : Option JsURL :=
  let l := s.toList
  let afterScheme : Option (List Char) :=
    if "https://".toList.isPrefixOf l then some (l.drop 8)
    else if "http://".toList.isPrefixOf l then some (l.drop 7)
    else none
  match afterScheme with
  | none => none
  | some rest =>
    let host := rest.takeWhile (fun c => c ≠ '/' && c ≠ '?' && c ≠ '#')
    if host = [] then none
    else
      let tail0 := rest.dropWhile (fun c => c ≠ '/' && c ≠ '?' && c ≠ '#')
      let tail := tail0.takeWhile (· ≠ '#')
      let path := tail.takeWhile (· ≠ '?')
      let query : List Char :=
        match tail.dropWhile (· ≠ '?') with
        | _ :: qs => qs
        | [] => []
      some
        { pathname := if path = [] then "/" else ⟨path⟩,
          search := ((splitOnCh '&' query).filter (· ≠ [])).map parseQueryPair }

/-- `url.searchParams.get(k)`: the first value bound to `k`, or `null`. -/
def getParam (u : JsURL) (k : String) : Option String :=
  (u.search.find? (fun p => p.1 = k)).map (·.2)

/-- `u.pathname.replace(/^\/+/, "").split("/")[0] || null` from
`normalizeOfferPayload`: the first path segment, or `null` when empty. -/
def urlStoreSlug (u : JsURL) : Option String :=
  let p := u.pathname.toList.dropWhile (· = '/')
  let seg := p.takeWhile (· ≠ '/')
  if seg = [] then none else some ⟨seg⟩

/-- After the digit group of `/(\d{1,3})\s*%/`, the regex needs optional
whitespace and a `%`; on success return the group, the whitespace, and the
remainder after `%`. -/
def checkTail (ds rest : List Char) : Option (List Char × List Char × List Char) :=
  match rest.dropWhile isWsCh with
  | '%' :: post => some (ds, rest.takeWhile isWsCh, post)
  | _ => none

/-- Backtracking over the group length of `/(\d{1,3})\s*%/` at a fixed
position: try `k` digits, then `k-1`, …, then 1, as the greedy engine
does. -/
def tryGroupLen : ℕ → List Char → Option (List Char × List Char × List Char)
  | 0, _ => none
  | k + 1, l =>
    match checkTail (l.take (k + 1)) (l.drop (k + 1)) with
    | some r => some r
    | none => tryGroupLen k l

/-- Match `/(\d{1,3})\s*%/` at the head of the list: the group may take at
most `min 3 r` digits where `r` is the length of the digit run at the head,
longest first. -/
def matchPercentHere (l : List Char) : Option (List Char × List Char × List Char) :=
  tryGroupLen (min 3 (l.takeWhile isDigitCh).length) l

/-- First (leftmost) match of `/(\d{1,3})\s*%/` in the list, as
`String.prototype.match` finds it; returns prefix, digit group, group-to-`%`
whitespace, and remainder. -/
def scanPercent : List Char → Option (List Char × List Char × List Char × List Char)
  | [] => none
  | c :: t =>
    match matchPercentHere (c :: t) with
    | some (ds, ws, post) => some ([], ds, ws, post)
    | none =>
      match scanPercent t with
      | some (pre, ds, ws, post) => some (c :: pre, ds, ws, post)
      | none => none

/-- Embedding of `parseDiscountPercent` (`src/lib/eta.ts`) on a string that
is already known truthy: first regex match, `parseInt` of the group, kept
only in `(0, 100]`. -/
def parseDiscountStr (s : String) : Option ℕ :=
  match scanPercent s.toList with
  | none => none
  | some (_, ds, _, _) =>
    let v := digitsVal ds
    if 0 < v ∧ v ≤ 100 then some v else none

/-- Embedding of `parseDiscountPercent(name)` on the runtime value of
`name`. A falsy name (`undefined`, `null`, `""`, `0`, `false`) yields
`null`; a truthy string is scanned; a truthy non-string value makes
`name.match(...)` throw a `TypeError`, modelled as `Except.error`. -/
def parseDiscountPercentJS : Option JsonVal → Except Unit (Option ℕ)
  | none => .ok none
  | some .null => .ok none
  | some (.bool false) => .ok none
  | some (.num q) => if q = 0 then .ok none else .error ()
  | some (.str s) => if s = "" then .ok none else .ok (parseDiscountStr s)
  | some _ => .error ()

/-- The offer record `normalizeOfferPayload` builds, at its *runtime* field
types: fields the TypeScript code merely casts (`as string | null`) keep
whatever JSON value the payload carried, so they are `Option JsonVal` here;
fields that are genuinely computed (`price`, `unitPrice`, `kind`,
`discountPercent`, the URL-derived identifiers) have their computed types. -/
structure RawOffer where
  sourceUrl : String
  store : Option JsonVal
  publication : Option String
  offerId : Option String
  publicId : Option JsonVal
  name : Option JsonVal
  price : Option ℚ
  currency : JsonVal
  unitPrice : Option ℚ
  unitPriceUnit : Option JsonVal
  validFrom : Option JsonVal
  validThrough : Option JsonVal
  image : Option JsonVal
  kind : OfferKind
  discountPercent : Option ℕ

/-- The `image` normalization block of `normalizeOfferPayload`: a string
passes through, an array contributes its first element when that is a
string, any other truthy object contributes `img.url ?? img.src ?? null`
(arrays with a non-string head fall into this branch and yield `null`). -/
def normalizeImage : Option JsonVal → Option JsonVal
  | some (.str s) => some (.str s)
  | some (.arr (.str s :: _)) => some (.str s)
  | some (.arr _) => none
  | some (.obj fs) => jjOr (jGet (.obj fs) "url") (jjOr (jGet (.obj fs) "src") none)
  | _ => none

/-- The `unitPrice` normalization block: a truthy object yields
`toFloat(up.price ?? up.value)` and `up.unit ?? up.unitText ?? null`, any
other value goes through `toFloat` directly with no unit. -/
def normalizeUnitPrice : Option JsonVal → Option ℚ × Option JsonVal
  | some (.obj fs) =>
    (toFloat (jjOr (jGet (.obj fs) "price") (jGet (.obj fs) "value")),
      jjOr (jGet (.obj fs) "unit") (jjOr (jGet (.obj fs) "unitText") none))
  | some (.arr xs) =>
    (toFloat (jjOr (jGet (.arr xs) "price") (jGet (.arr xs) "value")),
      jjOr (jGet (.arr xs) "unit") (jjOr (jGet (.arr xs) "unitText") none))
  | up => (toFloat up, none)

/-- The `name` selection of `normalizeOfferPayload`:
`payload?.name ?? payload?.title ?? null`. -/
def normName (payload : JsonVal) : Option JsonVal :=
  jjOr (jGet payload "name") (jjOr (jGet payload "title") none)

/-- The `price` coalescing of `normalizeOfferPayload`:
`toFloat(payload?.price) ?? toFloat(pick(payload, ["pricing","price"])) ??
toFloat(pick(payload, ["price","value"])) ?? null`. -/
def normPrice (payload : JsonVal) : Option ℚ :=
  (toFloat (jGet payload "price")).orElse fun _ =>
    (toFloatV (jPick payload ["pricing", "price"])).orElse fun _ =>
      toFloatV (jPick payload ["price", "value"])

/-- The `kind` classification of `normalizeOfferPayload`:
`price !== null ? "offer" : "promotion"`. -/
def normKind (payload : JsonVal) : OfferKind :=
  if normPrice payload ≠ none then .offer else .promotion

/-- The record `normalizeOfferPayload` builds once the URL has parsed and
the discount scan (for promotions) has not thrown: every field follows the
corresponding statement of the source, coalescing the several possible
payload field paths and defaulting to `null`. -/
def mkNormOffer (payload : JsonVal) (u : JsURL) (sourceUrl : String)
    (discountPercent : Option ℕ) : RawOffer :=
  let sellerName : Option JsonVal :=
    match jjOr (jGet payload "seller")
        (jjOr (jGet payload "business") (jjOr (jGet payload "store") none)) with
    | some (.obj fs) => jGet (.obj fs) "name"
    | _ => none
  let (unitPrice, unitPriceUnit) :=
    normalizeUnitPrice
      (jjOr (jGet payload "unitPrice") (vOpt (jPick payload ["pricing", "unitPrice"])))
  { sourceUrl := sourceUrl
    store := jjOr sellerName (jjOr ((urlStoreSlug u).map .str) none)
    publication := getParam u "publication"
    offerId := getParam u "offer"
    publicId := jjOr (jGet payload "publicId") none
    name := normName payload
    price := normPrice payload
    currency :=
      match jjOr (jGet payload "currency")
          (jjOr (jGet payload "priceCurrency")
            (vOpt (jPick payload ["pricing", "currency"]))) with
      | some v => v
      | none => .str "DKK"
    unitPrice := unitPrice
    unitPriceUnit := unitPriceUnit
    validFrom :=
      jjOr (jGet payload "validFrom")
        (jjOr (jGet payload "validStart")
          (jjOr (vOpt (jPick payload ["validity", "from"])) none))
    validThrough :=
      jjOr (jGet payload "validThrough")
        (jjOr (jGet payload "priceValidUntil")
          (jjOr (jGet payload "validTo")
            (jjOr (vOpt (jPick payload ["validity", "to"])) none)))
    image :=
      normalizeImage
        (jjOr (jGet payload "image")
          (jjOr (jGet payload "images")
            (vOpt (jPick payload ["product", "image"]))))
    kind := normKind payload
    discountPercent := discountPercent }

/-- Embedding of `normalizeOfferPayload(payload, sourceUrl)` from
`src/lib/eta.ts`. The two statements that can throw are explicit
`Except.error` paths: `new URL(sourceUrl)` on an unparseable URL, and
`name.match(...)` inside `parseDiscountPercent` on a truthy non-string name
(reached only for promotions). Everything else fails soft to `null`. -/
def normalizeOfferPayload (payload : JsonVal) (sourceUrl : String) :
    Except Unit RawOffer :=
  match parseURL sourceUrl with
  | none => .error ()
  | some u =>
    let dpE : Except Unit (Option ℕ) :=
      match normKind payload with
      | .promotion => parseDiscountPercentJS (normName payload)
      | .offer => .ok none
    dpE.map fun discountPercent => mkNormOffer payload u sourceUrl discountPercent

lemma checkTail_spec {ds rest ds' ws post : List Char}
    (h : checkTail ds rest = some (ds', ws, post)) :
    ds' = ds ∧ rest = ws ++ '%' :: post ∧ ∀ c ∈ ws, isWsCh c = true := by
  unfold checkTail at h
  split at h
  · next post' heq =>
    rw [Option.some_inj] at h
    have h1 : ds = ds' := congrArg Prod.fst h
    have h2 : List.takeWhile isWsCh rest = ws := congrArg (fun x => x.2.1) h
    have h3 : post' = post := congrArg (fun x => x.2.2) h
    subst h1
    subst h2
    subst h3
    refine ⟨rfl, ?_, fun c hc => List.mem_takeWhile_imp hc⟩
    rw [← heq, List.takeWhile_append_dropWhile]
  · exact Option.noConfusion h

lemma mem_take_of_le_takeWhile {p : Char → Bool} :
    ∀ (l : List Char) (k : ℕ), k ≤ (l.takeWhile p).length →
      ∀ c ∈ l.take k, p c = true := by
  intro l
  induction l with
  | nil => intro k _ c hc; rw [List.take_nil] at hc; exact absurd hc (List.not_mem_nil c)
  | cons a t ih =>
    intro k hk c hc
    by_cases hp : p a
    · rw [List.takeWhile_cons_of_pos hp] at hk
      rcases k with _ | k
      · exact absurd hc (by simp)
      · rw [List.take_succ_cons] at hc
        rcases List.mem_cons.1 hc with h | h
        · exact h ▸ hp
        · have hk' : k + 1 ≤ (List.takeWhile p t).length + 1 := by simpa using hk
          exact ih k (Nat.succ_le_succ_iff.1 hk') c h
    · rw [List.takeWhile_cons_of_neg hp] at hk
      have hk0 : k = 0 := by simpa using hk
      subst hk0
      exact absurd hc (by simp)

lemma tryGroupLen_spec {k : ℕ} {l ds ws post : List Char}
    (hk : k ≤ (l.takeWhile isDigitCh).length)
    (h : tryGroupLen k l = some (ds, ws, post)) :
    l = ds ++ ws ++ '%' :: post ∧ ds ≠ [] ∧
      (∀ c ∈ ds, isDigitCh c = true) ∧ ∀ c ∈ ws, isWsCh c = true := by
  induction k with
  | zero => exact Option.noConfusion h
  | succ k ih =>
    unfold tryGroupLen at h
    rcases hct : checkTail (l.take (k + 1)) (l.drop (k + 1)) with _ | r <;>
      rw [hct] at h
    · exact ih (Nat.le_of_succ_le hk) h
    · obtain rfl : r = (ds, ws, post) := Option.some.inj h
      obtain ⟨h1, h2, h3⟩ := checkTail_spec hct
      subst h1
      refine ⟨?_, ?_, ?_, h3⟩
      · rw [List.append_assoc, ← h2, List.take_append_drop]
      · intro hnil
        have hlen := congrArg List.length hnil
        rw [List.length_take, List.length_nil] at hlen
        have h1 : (1 : ℕ) ≤ (List.takeWhile isDigitCh l).length :=
          Nat.le_trans (Nat.succ_le_succ (Nat.zero_le k)) hk
        have h2 : (List.takeWhile isDigitCh l).length ≤ l.length := by
          conv_rhs => rw [← List.takeWhile_append_dropWhile (p := isDigitCh) (l := l)]
          rw [List.length_append]
          exact Nat.le_add_right _ _
        omega
      · exact mem_take_of_le_takeWhile l (k + 1) hk

lemma matchPercentHere_spec {l ds ws post : List Char}
    (h : matchPercentHere l = some (ds, ws, post)) :
    l = ds ++ ws ++ '%' :: post ∧ ds ≠ [] ∧
      (∀ c ∈ ds, isDigitCh c = true) ∧ ∀ c ∈ ws, isWsCh c = true :=
  tryGroupLen_spec (Nat.min_le_right _ _) h

lemma scanPercent_spec :
    ∀ {l pre ds ws post : List Char},
      scanPercent l = some (pre, ds, ws, post) →
      l = pre ++ ds ++ ws ++ '%' :: post ∧ ds ≠ [] ∧
        (∀ c ∈ ds, isDigitCh c = true) ∧ ∀ c ∈ ws, isWsCh c = true := by
  intro l
  induction l with
  | nil => intro pre ds ws post h; exact Option.noConfusion h
  | cons c t ih =>
    intro pre ds ws post h
    unfold scanPercent at h
    rcases hm : matchPercentHere (c :: t) with _ | ⟨rds, rws, rpost⟩ <;>
      rw [hm] at h
    · rcases hs : scanPercent t with _ | ⟨spre, sds, sws, spost⟩ <;> rw [hs] at h
      · exact Option.noConfusion h
      · rw [Option.some_inj] at h
        have e1 : c :: spre = pre := congrArg (fun x => x.1) h
        have e2 : sds = ds := congrArg (fun x => x.2.1) h
        have e3 : sws = ws := congrArg (fun x => x.2.2.1) h
        have e4 : spost = post := congrArg (fun x => x.2.2.2) h
        subst e1
        subst e2
        subst e3
        subst e4
        obtain ⟨h1, h2, h3, h4⟩ := ih hs
        exact ⟨by rw [h1]; simp, h2, h3, h4⟩
    · rw [Option.some_inj] at h
      have e1 : ([] : List Char) = pre := congrArg (fun x => x.1) h
      have e2 : rds = ds := congrArg (fun x => x.2.1) h
      have e3 : rws = ws := congrArg (fun x => x.2.2.1) h
      have e4 : rpost = post := congrArg (fun x => x.2.2.2) h
      subst e1
      subst e2
      subst e3
      subst e4
      obtain ⟨h1, h2, h3, h4⟩ := matchPercentHere_spec hm
      exact ⟨by rw [List.nil_append, ← h1], h2, h3, h4⟩

/-- What a successful `parseDiscountPercent` scan guarantees: a value in
`(0,100]` read off a digit group that occurs in the string followed by
optional whitespace and a `%`. -/
lemma parseDiscountStr_spec {s : String} {v : ℕ} (h : parseDiscountStr s = some v) :
    0 < v ∧ v ≤ 100 ∧
      ∃ pre ds ws post, s.toList = pre ++ ds ++ ws ++ '%' :: post ∧
        ds ≠ [] ∧ (∀ c ∈ ds, isDigitCh c = true) ∧
        (∀ c ∈ ws, isWsCh c = true) ∧ digitsVal ds = v := by
  unfold parseDiscountStr at h
  rcases hs : scanPercent s.toList with _ | ⟨pre', ds', ws', post'⟩ <;>
    rw [hs] at h
  · exact Option.noConfusion h
  · dsimp only at h
    split at h
    · next hb =>
      rw [Option.some_inj] at h
      subst h
      obtain ⟨h1, h2, h3, h4⟩ := scanPercent_spec hs
      exact ⟨hb.1, hb.2, pre', ds', ws', post', h1, h2, h3, h4, rfl⟩
    · exact Option.noConfusion h

/-- C6 counterexample: with the empty source URL — a string `new URL`
rejects — the Normalizer throws instead of returning an Offer, for any
payload (here the JSON `null` payload). -/
theorem normalizeOffer_empty_url_throws :
    normalizeOfferPayload JsonVal.null "" = Except.error () := rfl

/-- C6 amended: for every payload and every source URL the URL parser
accepts, provided the payload is priced or its selected `name`/`title` value
is falsy or a string (so that `name.match` cannot throw on a promotion), the
Normalizer returns an Offer record without throwing, whose raw fields carry
the coalesced-or-`null` values. -/
theorem normalizeOffer_no_throw_amended (payload : JsonVal) (sourceUrl : String)
    (hu : (parseURL sourceUrl).isSome = true)
    (hsafe : normPrice payload ≠ none ∨
      (parseDiscountPercentJS (normName payload)).isOk = true) :
    ∃ o : RawOffer, normalizeOfferPayload payload sourceUrl = .ok o ∧
      o.sourceUrl = sourceUrl ∧ o.price = normPrice payload ∧
      o.name = normName payload := by
  rcases hu' : parseURL sourceUrl with _ | u
  · rw [hu'] at hu
    simp at hu
  · unfold normalizeOfferPayload
    rw [hu']
    dsimp only
    rcases hk : normKind payload with _ | _
    · exact ⟨mkNormOffer payload u sourceUrl none, rfl, rfl, rfl, rfl⟩
    have hp : normPrice payload = none := by
      by_contra hne
      rw [normKind, if_pos hne] at hk
      exact OfferKind.noConfusion hk
    rcases hE : parseDiscountPercentJS (normName payload) with e | dp
    · rcases hsafe with h | h
      · exact absurd hp h
      · rw [hE] at h
        simp [Except.isOk, Except.toBool] at h
    · exact ⟨mkNormOffer payload u sourceUrl dp, rfl, rfl, rfl, rfl⟩

/-- Witness for C6 amended: a well-formed payload and a pushUrl-shaped
source URL produce an Offer. -/
theorem normalizeOffer_no_throw_amended_witness :
    ∃ o : RawOffer,
      normalizeOfferPayload
          (JsonVal.obj [("name", JsonVal.str "Letmælk 1L"), ("price", JsonVal.num 12)])
          "https://etilbudsavis.dk/netto?publication=p1&offer=o1" = .ok o ∧
      o.sourceUrl = "https://etilbudsavis.dk/netto?publication=p1&offer=o1" ∧
      o.price = normPrice
        (JsonVal.obj [("name", JsonVal.str "Letmælk 1L"), ("price", JsonVal.num 12)]) ∧
      o.name = normName
        (JsonVal.obj [("name", JsonVal.str "Letmælk 1L"), ("price", JsonVal.num 12)]) :=
  normalizeOffer_no_throw_amended
    (JsonVal.obj [("name", JsonVal.str "Letmælk 1L"), ("price", JsonVal.num 12)])
    "https://etilbudsavis.dk/netto?publication=p1&offer=o1"
    (by rfl) (Or.inl (by simp [normPrice, jGet, toFloat]))

/-- C7: a Normalizer output has a non-null `discountPercent` only when it is
a promotion (its `price` is `null`), and then the value `v` lies in
`(0,100]` and the name is a string containing a digit group that evaluates
to `v`, followed by optional whitespace and a `%` sign. -/
theorem normalizeOffer_discount_only_promotions
    (payload : JsonVal) (sourceUrl : String) (o : RawOffer) (v : ℕ)
    (h : normalizeOfferPayload payload sourceUrl = .ok o)
    (hd : o.discountPercent = some v) :
    o.kind = .promotion ∧ o.price = none ∧ 0 < v ∧ v ≤ 100 ∧
      ∃ s pre ds ws post, o.name = some (.str s) ∧
        s.toList = pre ++ ds ++ ws ++ '%' :: post ∧
        ds ≠ [] ∧ (∀ c ∈ ds, isDigitCh c = true) ∧
        (∀ c ∈ ws, isWsCh c = true) ∧ digitsVal ds = v := by
  unfold normalizeOfferPayload at h
  rcases hu : parseURL sourceUrl with _ | u <;> rw [hu] at h
  · exact Except.noConfusion h
  · dsimp only at h
    rcases hk : normKind payload with _ | _ <;> rw [hk] at h
    · obtain rfl : mkNormOffer payload u sourceUrl none = o := Except.ok.inj h
      exact absurd hd (by simp [mkNormOffer])
    · rcases hE : parseDiscountPercentJS (normName payload) with e | dp <;>
        rw [hE] at h
      · exact Except.noConfusion h
      · obtain rfl : mkNormOffer payload u sourceUrl dp = o := Except.ok.inj h
        obtain rfl : dp = some v := by simpa [mkNormOffer] using hd
        have hp : normPrice payload = none := by
          by_contra hne
          rw [normKind, if_pos hne] at hk
          exact OfferKind.noConfusion hk
        refine ⟨by simp [mkNormOffer, hk], by simp [mkNormOffer, hp], ?_⟩
        rcases hn : normName payload with _ | val <;> rw [hn] at hE
        · exact absurd (Except.ok.inj hE) (by simp)
        · rcases val with _ | b | q | s | xs | fs
          · exact absurd (Except.ok.inj hE) (by simp)
          · rcases b with _ | _
            · exact absurd (Except.ok.inj hE) (by simp)
            · exact Except.noConfusion hE
          · rw [parseDiscountPercentJS] at hE
            split at hE
            · exact absurd (Except.ok.inj hE) (by simp)
            · exact Except.noConfusion hE
          · rw [parseDiscountPercentJS] at hE
            split at hE
            · exact absurd (Except.ok.inj hE) (by simp)
            · have hps : parseDiscountStr s = some v := Except.ok.inj hE
              obtain ⟨hb1, hb2, pre, ds, ws, post, h1, h2, h3, h4, h5⟩ :=
                parseDiscountStr_spec hps
              exact ⟨hb1, hb2, s, pre, ds, ws, post, by simp [mkNormOffer, hn],
                h1, h2, h3, h4, h5⟩
          · exact Except.noConfusion hE
          · exact Except.noConfusion hE

/-- Witness for C7: a priceless payload named `"Spar 20%"` yields a
promotion with `discountPercent = 20` and the guaranteed name pattern. -/
theorem normalizeOffer_discount_only_promotions_witness :
    ∃ o : RawOffer,
      normalizeOfferPayload (JsonVal.obj [("name", JsonVal.str "Spar 20%")])
          "https://etilbudsavis.dk/netto?publication=p1&offer=o1" = .ok o ∧
      (o.kind = .promotion ∧ o.price = none ∧ 0 < 20 ∧ 20 ≤ 100 ∧
        ∃ s pre ds ws post, o.name = some (.str s) ∧
          s.toList = pre ++ ds ++ ws ++ '%' :: post ∧
          ds ≠ [] ∧ (∀ c ∈ ds, isDigitCh c = true) ∧
          (∀ c ∈ ws, isWsCh c = true) ∧ digitsVal ds = 20) :=
  ⟨mkNormOffer (JsonVal.obj [("name", JsonVal.str "Spar 20%")])
      ⟨"/netto", [("publication", "p1"), ("offer", "o1")]⟩
      "https://etilbudsavis.dk/netto?publication=p1&offer=o1" (some 20),
    rfl,
    normalizeOffer_discount_only_promotions
      (JsonVal.obj [("name", JsonVal.str "Spar 20%")])
      "https://etilbudsavis.dk/netto?publication=p1&offer=o1" _ 20 rfl rfl⟩

/-! ## The Fetch Orchestrator's offer-page loop (`etaSearchOffers`) -/

/-- Outcome of `fetch(url)` for one offer page, as the loop in
`etaSearchOffers` observes it: the promise rejects (network error or
timeout), or resolves with a non-2xx response (`!res.ok`), or resolves OK
with a body. -/
inductive FetchOutcome where
  | reject
  | httpError
  | okHtml (html : String)

/-- Embedding of the offer-page loop of `etaSearchOffers`
(`src/lib/eta.ts`), parameterized by the network (`fetchPage`) and by the
app-data payload decoder (`decode`, the behavior of
`extractOfferAppDataPayloadFromOfferHtml`, whose internals no claim
depends on). A rejected fetch is an uncaught exception (`Except.error`),
aborting the loop, as is a `normalizeOfferPayload` throw; a non-2xx
response or an undecodable page just skips that URL. The pacing `sleep`
has no observable effect on the result and is omitted. -/
def etaOfferLoop (fetchPage : String → FetchOutcome) (decode : String → Option JsonVal) :
    List String → Except Unit (List RawOffer)
  | [] => .ok []
  | url :: rest =>
    match fetchPage url with
    | .reject => .error ()
    | .httpError => etaOfferLoop fetchPage decode rest
    | .okHtml html =>
      match decode html with
      | none => etaOfferLoop fetchPage decode rest
      | some payload =>
        match normalizeOfferPayload payload url with
        | .error e => .error e
        | .ok o => (etaOfferLoop fetchPage decode rest).map (o :: ·)

/-- A network oracle for the counterexample: the first URL's fetch rejects,
every other fetch resolves OK with an empty body. -/
def rejectFirstOracle (u : String) : FetchOutcome :=
  if u = "u1" then .reject else .okHtml ""

/-- A decoder for the counterexample: every page decodes to a payload naming
a priced offer. -/
def constPayloadDecode (_ : String) : Option JsonVal :=
  some (JsonVal.obj [("name", JsonVal.str "Løg 1kg"), ("price", JsonVal.num 10)])

/-- C5 counterexample: with a batch of two offer pages whose first fetch
rejects (a network error or timeout), the loop aborts with the exception and
the second page — which alone would have produced an offer — is never
processed; a transport failure of the rejection kind does *not* merely skip
one offer. -/
theorem etaOfferLoop_reject_aborts_counterexample :
    etaOfferLoop rejectFirstOracle constPayloadDecode
        ["u1", "https://etilbudsavis.dk/netto?publication=p1&offer=o1"]
      = .error () ∧
    etaOfferLoop rejectFirstOracle constPayloadDecode
        ["https://etilbudsavis.dk/netto?publication=p1&offer=o1"]
      = .ok [mkNormOffer
          (JsonVal.obj [("name", JsonVal.str "Løg 1kg"), ("price", JsonVal.num 10)])
          ⟨"/netto", [("publication", "p1"), ("offer", "o1")]⟩
          "https://etilbudsavis.dk/netto?publication=p1&offer=o1" none] :=
  ⟨rfl, rfl⟩

/-- C5 amended: an upstream failure that surfaces as a *non-2xx response* on
one offer page skips exactly that page — the rest of the batch is processed
as if the page were absent — while a *rejected* fetch (network error or
timeout) propagates out of the loop and aborts the whole batch for that
search term (the route-level caller catches it and drops the term). -/
theorem etaOfferLoop_skip_httpError_abort_reject
    (fetchPage : String → FetchOutcome) (decode : String → Option JsonVal)
    (u : String) (rest : List String) :
    (fetchPage u = .httpError →
      etaOfferLoop fetchPage decode (u :: rest) = etaOfferLoop fetchPage decode rest) ∧
    (fetchPage u = .reject →
      etaOfferLoop fetchPage decode (u :: rest) = .error ()) := by
  constructor
  · intro h
    conv_lhs => rw [etaOfferLoop]
    rw [h]
  · intro h
    conv_lhs => rw [etaOfferLoop]
    rw [h]

/-- Witness for C5 amended at a concrete batch: an `httpError` head is
skipped (the tail's offer still produced), a rejecting head aborts. -/
theorem etaOfferLoop_skip_httpError_abort_reject_witness :
    ((fun u => if u = "bad" then FetchOutcome.httpError else rejectFirstOracle u)
        "bad" = .httpError →
      etaOfferLoop
          (fun u => if u = "bad" then FetchOutcome.httpError else rejectFirstOracle u)
          constPayloadDecode
          ["bad", "https://etilbudsavis.dk/netto?publication=p1&offer=o1"]
        = etaOfferLoop
            (fun u => if u = "bad" then FetchOutcome.httpError else rejectFirstOracle u)
            constPayloadDecode
            ["https://etilbudsavis.dk/netto?publication=p1&offer=o1"]) ∧
    ((fun u => if u = "bad" then FetchOutcome.httpError else rejectFirstOracle u)
        "bad" = .reject →
      etaOfferLoop
          (fun u => if u = "bad" then FetchOutcome.httpError else rejectFirstOracle u)
          constPayloadDecode
          ["bad", "https://etilbudsavis.dk/netto?publication=p1&offer=o1"]
        = .error ()) :=
  etaOfferLoop_skip_httpError_abort_reject
    (fun u => if u = "bad" then FetchOutcome.httpError else rejectFirstOracle u)
    constPayloadDecode "bad"
    ["https://etilbudsavis.dk/netto?publication=p1&offer=o1"]

/-! ## The `/api/eta/guide` route: text matching and coverage ranking -/

/-- `String.prototype.toLowerCase` restricted to the ASCII letters and the
Danish letters Æ/Ø/Å, the only cased characters this pipeline meets. -/
def jsLowerCh (c : Char) : Char :=
  if 'A' ≤ c && c ≤ 'Z' then Char.ofNat (c.toNat + 32)
  else if c = 'Æ' then 'æ'
  else if c = 'Ø' then 'ø'
  else if c = 'Å' then 'å'
  else c

lemma length_dropWhile_le (p : Char → Bool) (l : List Char) :
    (l.dropWhile p).length ≤ l.length := by
  conv_rhs => rw [← List.takeWhile_append_dropWhile (p := p) (l := l)]
  rw [List.length_append]
  exact Nat.le_add_left _ _

/-- The `replace(/\([^)]*\)/g, " ")` step of `normalizeText`, with explicit
fuel so that the recursion is structural (each step consumes at least one
character, so `l.length` fuel always suffices): each parenthesized group
(any characters except `)` between `(` and `)`) becomes one space; a `(`
with no later `)` stays. -/
def stripParensF : ℕ → List Char → List Char
  | 0, l => l
  | _ + 1, [] => []
  | fuel + 1, '(' :: rest =>
    match rest.dropWhile (· ≠ ')') with
    | ')' :: after => ' ' :: stripParensF fuel after
    | _ => '(' :: stripParensF fuel rest
  | fuel + 1, c :: t => c :: stripParensF fuel t

/-- The parenthesis-blanking pass, fuelled by the input length. -/
def stripParens (l : List Char) : List Char :=
  stripParensF l.length l

/-- The character class kept by `replace(/[^a-z0-9æøå\s]/gi, " ")`. -/
def isKeptCh (c : Char) : Bool :=
  ('a' ≤ c && c ≤ 'z') || ('A' ≤ c && c ≤ 'Z') || ('0' ≤ c && c ≤ '9') ||
    c = 'æ' || c = 'ø' || c = 'å' || c = 'Æ' || c = 'Ø' || c = 'Å' || isWsCh c

/-- The `replace(/\s+/g, " ")` step: collapse whitespace runs to one space
(`prevWs` records whether the previous character was whitespace). -/
def collapseWsAux : Bool → List Char → List Char
  | _, [] => []
  | prevWs, c :: t =>
    if isWsCh c then
      if prevWs then collapseWsAux true t else ' ' :: collapseWsAux true t
    else c :: collapseWsAux false t

/-- Embedding of `normalizeText` from `src/app/api/eta/guide/route.ts`:
lowercase, blank out parenthesized groups, blank out every character outside
`[a-z0-9æøå\s]` (case-insensitively), collapse whitespace, trim. -/
def normalizeText (s : String) : String :=
  jsTrim ⟨collapseWsAux false
    (((stripParens (s.toList.map jsLowerCh)).map
      (fun c => if isKeptCh c then c else ' ')))⟩

/-- Embedding of `hasWholeWord`: both strings nonempty and
`" " + needle + " "` occurs in `" " + haystack + " "`. -/
def hasWholeWord (haystackNorm needleNorm : String) : Bool :=
  if haystackNorm = "" || needleNorm = "" then false
  else strIncludes (" " ++ haystackNorm ++ " ") (" " ++ needleNorm ++ " ")

/-- Embedding of `tokenizeQuery`: normalize, split on spaces, trim, keep
tokens of length ≥ 2. -/
def tokenizeQuery (q : String) : List String :=
  let n := normalizeText q
  if n = "" then []
  else ((splitOnCh ' ' n.toList).map (fun w => jsTrim ⟨w⟩)).filter
    (fun t => 2 ≤ t.length)

/-- Embedding of `isMilkQuery`. -/
def isMilkQuery (qNorm : String) : Bool :=
  qNorm = "mælk" || qNorm = "milk"

/-- The flavored-milk deny list of `milkMatch`. -/
def milkDeny : List String :=
  ["kakao", "chokolade", "jordbær", "vanil", "protein", "shake"]

/-- The exact-token allow set of `milkMatch`. -/
def milkAllowExact : List String :=
  ["mælk", "letmælk", "minimælk", "skummetmælk", "skummemælk", "sødmælk", "kærnemælk"]

/-- Embedding of `milkMatch` from the guide route: a name containing `mælk`
together with a flavored-milk marker is rejected; otherwise a token equal to
an allowed milk type, or the whole word `mælk`, matches. -/
def milkMatch (nameNorm : String) : Bool :=
  if strIncludes nameNorm "mælk" &&
      milkDeny.any (fun d => strIncludes nameNorm d) then false
  else
    let toks := ((splitOnCh ' ' nameNorm.toList).map (fun w => jsTrim ⟨w⟩)).filter
      (fun t => t ≠ "")
    if toks.any (fun t => milkAllowExact.contains t) then true
    else hasWholeWord nameNorm "mælk"

/-- Embedding of `offerMatchesQuery` from the guide route. -/
def offerMatchesQuery (offerName : Option String) (query : String) : Bool :=
  let nameNorm := normalizeText (offerName.getD "")
  let qNorm := normalizeText query
  if nameNorm = "" || qNorm = "" then false
  else if isMilkQuery qNorm then milkMatch nameNorm
  else
    let toks := (tokenizeQuery qNorm).filter (fun t => 3 ≤ t.length)
    if toks = [] then false
    else toks.any (fun t => hasWholeWord nameNorm t)

/-- One element of a `StoreRow`'s `sampleOffers` projection. -/
structure SampleOffer where
  name : Option String
  price : Option ℚ
  currency : String
  validThrough : Option String
  sourceUrl : String
  image : Option String
deriving Repr, DecidableEq

/-- Embedding of the guide route's `StoreRow` (`coveragePct` is the integer
`Math.round` result). -/
structure StoreRow where
  store : String
  coverageCount : ℕ
  coveragePct : ℤ
  matchedItems : List String
  sampleOffers : List SampleOffer
  bestPrice : Option ℚ
deriving Repr, DecidableEq

/-- `Math.round` on an exact rational: floor of `x + 1/2`. -/
def jsRound (x : ℚ) : ℤ :=
  ⌊x + 1 / 2⌋

/-- `Math.round((coverageCount / totalQueries) * 100)` computed exactly in
natural arithmetic: `round(100c/t) = ⌊(200c + t) / 2t⌋`. (The double
computation rounds identically: values of `100c/t` are either exactly
representable at ties or at distance ≥ `1/2t` from a tie, far beyond any
floating-point error.) `coveragePctNat_eq_jsRound` proves the equality with
the rounded rational. -/
def coveragePctNat (c t : ℕ) : ℕ :=
  (200 * c + t) / (2 * t)

lemma coveragePctNat_eq_jsRound (c t : ℕ) (ht : 0 < t) :
    (coveragePctNat c t : ℤ) = jsRound ((c : ℚ) / (t : ℚ) * 100) := by
  unfold coveragePctNat jsRound
  have h1 : (c : ℚ) / (t : ℚ) * 100 + 1 / 2
      = ((200 * c + t : ℕ) : ℚ) / ((2 * t : ℕ) : ℚ) := by
    have htq : (t : ℚ) ≠ 0 := Nat.cast_ne_zero.2 ht.ne'
    push_cast
    field_simp
    ring
  rw [h1, Rat.floor_natCast_div_natCast]
  exact (Int.ofNat_div _ _).symm

/-- The grouping key of the guide route's `storeMap`:
`(o.store || "").trim()`. -/
def storeKey (o : EtaOffer) : String :=
  jsTrim (o.store.getD "")

/-- One step of the `storeMap` construction: append the offer to its
store's list, creating the entry on first sight (a JavaScript `Map`
preserves insertion order). -/
def smInsert (m : List (String × List EtaOffer)) (k : String) (o : EtaOffer) :
    List (String × List EtaOffer) :=
  if m.any (fun p => p.1 = k) then
    m.map (fun p => if p.1 = k then (p.1, p.2 ++ [o]) else p)
  else m ++ [(k, [o])]

/-- Embedding of the `storeMap` loop of the guide route's `GET`: group the
merged offers by trimmed store name, skipping empty names, preserving
first-seen key order and per-store offer order. -/
def buildStoreMap (offers : List EtaOffer) : List (String × List EtaOffer) :=
  offers.foldl
    (fun m o =>
      let store := storeKey o
      if store = "" then m else smInsert m store o)
    []

/-- The sentinel `1e12` that the guide route substitutes for a missing
price in its sort comparators. -/
def priceSentinel : ℚ := 1000000000000

/-- The `bestPrice` accumulation step: a finite-priced offer matching any
query lowers the minimum. -/
def bestPriceStep (queries : List String) (acc : Option ℚ) (o : EtaOffer) : Option ℚ :=
  if queries.any (fun q => offerMatchesQuery o.name q) then
    match o.price with
    | some p =>
      match acc with
      | none => some p
      | some b => if p < b then some p else some b
    | none => acc
  else acc

/-- Sample-offer sort order: ascending `price ?? 1e12` (the JavaScript sort
is stable; ties keep input order, as `List.insertionSort` does). -/
def samplePriceLe (a b : EtaOffer) : Bool :=
  a.price.getD priceSentinel ≤ b.price.getD priceSentinel

/-- Embedding of the per-store row construction of the guide route's `GET`:
matched queries, best matching price, and up to four cheapest priced sample
offers. -/
def makeRow (queries : List String) (store : String) (offers : List EtaOffer) :
    StoreRow :=
  let matched := queries.filter (fun q => offers.any (fun o => offerMatchesQuery o.name q))
  let bestPrice := offers.foldl (bestPriceStep queries) none
  let sampleOffers :=
    ((List.insertionSort (fun a b => samplePriceLe a b = true)
        (offers.filter (fun o => o.sourceUrl ≠ "" && o.price ≠ none))).take 4).map
      (fun o =>
        { name := o.name
          price := o.price
          currency := o.currency.getD "DKK"
          validThrough := o.validThrough
          sourceUrl := o.sourceUrl
          image := o.image : SampleOffer })
  { store := store
    coverageCount := matched.length
    coveragePct :=
      if queries.length = 0 then 0
      else (coveragePctNat matched.length queries.length : ℤ)
    matchedItems := matched
    sampleOffers := sampleOffers
    bestPrice := bestPrice }

/-- The rows of the guide response before sorting, in `storeMap` iteration
order. -/
def guideRows (queries : List String) (offers : List EtaOffer) : List StoreRow :=
  (buildStoreMap offers).map (fun p => makeRow queries p.1 p.2)

/-- The sort comparator of the guide route as a boolean "may come first"
relation: higher `coverageCount` first, then lower `bestPrice ?? 1e12`
first. `rows.sort(c)` with this consistent comparator produces exactly the
stable sort by this relation. -/
def rowLe (a b : StoreRow) : Bool :=
  if a.coverageCount = b.coverageCount then
    a.bestPrice.getD priceSentinel ≤ b.bestPrice.getD priceSentinel
  else b.coverageCount < a.coverageCount

/-- `rowLe` as a decidable relation (for `List.insertionSort`). -/
def rowLeP (a b : StoreRow) : Prop :=
  rowLe a b = true

instance : DecidableRel rowLeP :=
  fun a b => instDecidableEqBool (rowLe a b) true

/-- Embedding of the guide route's ranking: sort the rows and keep the top
10. `Array.prototype.sort` with a consistent comparator is a stable sort,
which `List.insertionSort` is too: both produce the unique list ordered by
the comparator's total preorder with ties in input order. -/
def guideStores (queries : List String) (offers : List EtaOffer) : List StoreRow :=
  (List.insertionSort rowLeP (guideRows queries offers)).take 10

lemma rowLe_total : ∀ a b : StoreRow, rowLeP a b ∨ rowLeP b a := by
  intro a b
  unfold rowLeP rowLe
  by_cases hc : a.coverageCount = b.coverageCount
  · rw [if_pos hc, if_pos hc.symm]
    rcases le_total (a.bestPrice.getD priceSentinel) (b.bestPrice.getD priceSentinel)
        with h | h
    · exact Or.inl (by simpa using h)
    · exact Or.inr (by simpa using h)
  · rw [if_neg hc, if_neg (Ne.symm hc)]
    rcases Nat.lt_or_ge a.coverageCount b.coverageCount with h | h
    · exact Or.inr (by simpa using h)
    · exact Or.inl (by simpa using Nat.lt_of_le_of_ne h (Ne.symm hc))

lemma rowLe_trans : ∀ a b c : StoreRow, rowLeP a b → rowLeP b c → rowLeP a c := by
  intro a b c hab hbc
  unfold rowLeP rowLe at hab hbc ⊢
  by_cases hab' : a.coverageCount = b.coverageCount <;>
    by_cases hbc' : b.coverageCount = c.coverageCount
  · rw [if_pos hab'] at hab
    rw [if_pos hbc'] at hbc
    rw [if_pos (hab'.trans hbc')]
    simp only [decide_eq_true_eq] at hab hbc ⊢
    exact le_trans hab hbc
  · rw [if_neg hbc'] at hbc
    simp only [decide_eq_true_eq] at hbc
    have : ¬ a.coverageCount = c.coverageCount := by omega
    rw [if_neg this]
    simp only [decide_eq_true_eq]
    omega
  · rw [if_neg hab'] at hab
    simp only [decide_eq_true_eq] at hab
    have : ¬ a.coverageCount = c.coverageCount := by omega
    rw [if_neg this]
    simp only [decide_eq_true_eq]
    omega
  · rw [if_neg hab'] at hab
    rw [if_neg hbc'] at hbc
    simp only [decide_eq_true_eq] at hab hbc
    by_cases hac : a.coverageCount = c.coverageCount
    · omega
    · rw [if_neg hac]
      simp only [decide_eq_true_eq]
      omega

instance : IsTotal StoreRow rowLeP := ⟨rowLe_total⟩

instance : IsTrans StoreRow rowLeP := ⟨rowLe_trans⟩

/-- The ranked output is sorted by the comparator's relation. -/
lemma guideStores_sorted (queries : List String) (offers : List EtaOffer) :
    (guideStores queries offers).Pairwise rowLeP :=
  List.Pairwise.sublist (List.take_sublist _ _)
    (List.sorted_insertionSort rowLeP _)

/-- A missing `bestPrice` compared at the code's sentinel `1e12`. -/
def bestPriceOrSentinel (r : StoreRow) : ℚ :=
  r.bestPrice.getD priceSentinel

/-- A missing `bestPrice` read as `+∞`, the spec's stated convention. -/
def bestPriceOrInf (r : StoreRow) : WithTop ℚ :=
  match r.bestPrice with
  | none => ⊤
  | some p => (p : WithTop ℚ)

/-- A priced offer as the guide pipeline sees it (identifiers it does not
read are `null`). -/
def mkPricedOffer (url store name : String) (price : ℚ) : EtaOffer :=
  { sourceUrl := url, store := some store, publication := none, offerId := none,
    publicId := none, name := some name, price := some price,
    currency := some "DKK", unitPrice := none, unitPriceUnit := none,
    validFrom := none, validThrough := none, image := none, kind := .offer,
    discountPercent := none }

/-- The ordering property C1 claims of a ranked row list, literally: for any
two distinct rows `A = rows[i]` and `B = rows[j]`, more coverage means
appearing earlier, and at equal coverage a lower-or-equal best price
(`null` read as `+∞`) means appearing earlier. -/
def claimedRowOrder (rows : List StoreRow) : Prop :=
  ∀ i j : Fin rows.length, i ≠ j →
    ((rows.get j).coverageCount < (rows.get i).coverageCount → i < j) ∧
    ((rows.get i).coverageCount = (rows.get j).coverageCount ∧
      bestPriceOrInf (rows.get i) ≤ bestPriceOrInf (rows.get j) → i < j)

instance (rows : List StoreRow) : Decidable (claimedRowOrder rows) := by
  unfold claimedRowOrder
  infer_instance

/-- C1 counterexample: two stores, each covering the single query with the
same best price 10, tie on both sort keys; the produced ranking keeps
insertion order, so the later row has an equal (hence `≤`) best price and
equal coverage yet does not appear before the earlier one — the claimed
`≤`-ordering property is violated by every tie. -/
theorem guide_rank_claimed_order_counterexample :
    ¬ claimedRowOrder (guideStores ["løg"]
      [mkPricedOffer "ua" "Store A" "Løg 1kg" 10,
       mkPricedOffer "ub" "Store B" "Løg 1kg" 10]) := by
  decide

/-- C1 amended: in every ranked output, strictly more coverage means
appearing earlier, and at equal coverage a *strictly* lower best price —
missing prices compared at the code's sentinel `1e12` — means appearing
earlier. (Ties on both keys keep grouping order, so the claim's non-strict
`≤` version is false.) -/
theorem guide_rank_order_amended (queries : List String) (offers : List EtaOffer)
    (i j : Fin (guideStores queries offers).length) (hne : i ≠ j) :
    (((guideStores queries offers).get j).coverageCount
        < ((guideStores queries offers).get i).coverageCount → i < j) ∧
    (((guideStores queries offers).get i).coverageCount
          = ((guideStores queries offers).get j).coverageCount ∧
        bestPriceOrSentinel ((guideStores queries offers).get i)
          < bestPriceOrSentinel ((guideStores queries offers).get j) → i < j) := by
  have hp := List.pairwise_iff_get.1 (guideStores_sorted queries offers)
  constructor
  · intro hcov
    rcases Nat.lt_trichotomy (i : ℕ) (j : ℕ) with h | h | h
    · exact h
    · exact absurd (Fin.ext h) hne
    · have hle := hp j i h
      unfold rowLeP rowLe at hle
      rw [if_neg (Nat.ne_of_lt hcov)] at hle
      simp only [decide_eq_true_eq] at hle
      omega
  · rintro ⟨hcov, hbp⟩
    rcases Nat.lt_trichotomy (i : ℕ) (j : ℕ) with h | h | h
    · exact h
    · exact absurd (Fin.ext h) hne
    · have hle := hp j i h
      unfold rowLeP rowLe at hle
      rw [if_pos hcov.symm] at hle
      simp only [decide_eq_true_eq] at hle
      exact absurd hbp (not_lt.2 hle)

/-- The query list of the spec's worked example. -/
def exQueries : List String := ["mælk", "løg"]

/-- The four offers of the spec's worked example. -/
def exOffers : List EtaOffer :=
  [mkPricedOffer "ux1" "Store X" "Letmælk 1L" 12,
   mkPricedOffer "ux2" "Store X" "Løg 1kg" 12,
   mkPricedOffer "uy1" "Store Y" "Kakaomælk" 15,
   mkPricedOffer "uy2" "Store Y" "Løg 1kg" 10]

/-- Witness for C1 amended: in the ranked two-store example, Store Y's row
(index 1) has strictly less coverage than Store X's row (index 0), and the
theorem places index 0 first. -/
theorem guide_rank_order_amended_witness :
    (⟨0, by decide⟩ : Fin (guideStores exQueries exOffers).length)
      < (⟨1, by decide⟩ : Fin (guideStores exQueries exOffers).length) :=
  (guide_rank_order_amended exQueries exOffers
    ⟨0, by decide⟩ ⟨1, by decide⟩ (by decide)).1 (by decide)

/-- C2: on the query list `["mælk", "løg"]` with Store X offering
`"Letmælk 1L"` at 12 and `"Løg 1kg"` at 12, and Store Y offering
`"Kakaomælk"` at 15 and `"Løg 1kg"` at 10, the aggregation yields Store X
with coverage 2 (100 %, best price 12) ranked before Store Y with coverage 1
(best price 10), `"Kakaomælk"` being rejected by the flavored-milk rule. -/
theorem guide_example_storeX_before_storeY :
    (guideStores ["mælk", "løg"]
        [mkPricedOffer "ux1" "Store X" "Letmælk 1L" 12,
         mkPricedOffer "ux2" "Store X" "Løg 1kg" 12,
         mkPricedOffer "uy1" "Store Y" "Kakaomælk" 15,
         mkPricedOffer "uy2" "Store Y" "Løg 1kg" 10]).map
        (fun r => (r.store, r.coverageCount, r.coveragePct, r.matchedItems, r.bestPrice))
      = [("Store X", 2, 100, ["mælk", "løg"], some 12),
         ("Store Y", 1, 50, ["løg"], some 10)] ∧
    offerMatchesQuery (some "Kakaomælk") "mælk" = false := by
  decide

/-- Invariant of the `storeMap` fold after processing a prefix: every entry
holds exactly the processed offers with its (nonempty) key, in order, and a
key is present iff some processed offer carries it. -/
def storeMapInv (m : List (String × List EtaOffer)) (processed : List EtaOffer) :
    Prop :=
  (∀ p ∈ m, p.1 ≠ "" ∧ p.2 = processed.filter (fun o => storeKey o = p.1)) ∧
  (∀ s : String, (∃ p ∈ m, p.1 = s) ↔ (s ≠ "" ∧ ∃ o ∈ processed, storeKey o = s))

lemma filter_storeKey_singleton_ne {o : EtaOffer} {k : String}
    (h : ¬ storeKey o = k) :
    List.filter (fun x => decide (storeKey x = k)) [o] = [] := by
  simp [h]

lemma filter_storeKey_singleton_eq {o : EtaOffer} {k : String}
    (h : storeKey o = k) :
    List.filter (fun x => decide (storeKey x = k)) [o] = [o] := by
  simp [h]

lemma storeMapInv_step {m : List (String × List EtaOffer)}
    {processed : List EtaOffer} (o : EtaOffer) (hi : storeMapInv m processed) :
    storeMapInv (if storeKey o = "" then m else smInsert m (storeKey o) o)
      (processed ++ [o]) := by
  obtain ⟨h1, h2⟩ := hi
  by_cases hk : storeKey o = ""
  · rw [if_pos hk]
    constructor
    · intro p hp
      refine ⟨(h1 p hp).1, ?_⟩
      rw [List.filter_append, (h1 p hp).2,
        filter_storeKey_singleton_ne (fun he => (h1 p hp).1 (he.symm.trans hk)),
        List.append_nil]
    · intro s
      rw [h2 s]
      constructor
      · rintro ⟨hs, o', ho', hko'⟩
        exact ⟨hs, o', List.mem_append_left _ ho', hko'⟩
      · rintro ⟨hs, o', ho', hko'⟩
        rcases List.mem_append.1 ho' with h | h
        · exact ⟨hs, o', h, hko'⟩
        · rw [List.mem_singleton] at h
          rw [h] at hko'
          exact absurd (hko' ▸ hk) hs
  · rw [if_neg hk]
    unfold smInsert
    by_cases hany : m.any (fun p => p.1 = storeKey o) = true
    · rw [if_pos hany]
      constructor
      · intro p' hp'
        rcases List.mem_map.1 hp' with ⟨p, hp, hpe⟩
        by_cases hpk : p.1 = storeKey o
        · rw [if_pos hpk] at hpe
          rw [← hpe]
          refine ⟨(h1 p hp).1, ?_⟩
          dsimp only
          rw [List.filter_append, (h1 p hp).2, hpk,
            filter_storeKey_singleton_eq rfl]
        · rw [if_neg hpk] at hpe
          rw [← hpe]
          refine ⟨(h1 p hp).1, ?_⟩
          rw [List.filter_append, (h1 p hp).2,
            filter_storeKey_singleton_ne (fun he => hpk he.symm),
            List.append_nil]
      · intro s
        constructor
        · rintro ⟨p', hp', hps⟩
          rcases List.mem_map.1 hp' with ⟨p, hp, hpe⟩
          have hkey : p'.1 = p.1 := by
            by_cases hpk : p.1 = storeKey o
            · rw [if_pos hpk] at hpe
              rw [← hpe, hpk]
            · rw [if_neg hpk] at hpe
              rw [← hpe]
          have := (h2 s).1 ⟨p, hp, hkey ▸ hps⟩
          exact ⟨this.1, this.2.elim fun o' ho' =>
            ⟨o', List.mem_append_left _ ho'.1, ho'.2⟩⟩
        · rintro ⟨hs, o', ho', hko'⟩
          rcases List.mem_append.1 ho' with h | h
          · obtain ⟨p, hp, hps⟩ := (h2 s).2 ⟨hs, o', h, hko'⟩
            refine ⟨(if p.1 = storeKey o then (p.1, p.2 ++ [o]) else p),
              List.mem_map.2 ⟨p, hp, rfl⟩, ?_⟩
            split <;> exact hps
          · rw [List.mem_singleton] at h
            rw [h] at hko'
            obtain ⟨p, hp, hps⟩ := List.any_eq_true.1 hany
            rw [decide_eq_true_eq] at hps
            refine ⟨(p.1, p.2 ++ [o]), List.mem_map.2 ⟨p, hp, by rw [if_pos hps]⟩, ?_⟩
            dsimp only
            rw [hps, hko']
    · rw [if_neg hany]
      have hnone : processed.filter (fun o' => storeKey o' = storeKey o) = [] := by
        rw [List.filter_eq_nil_iff]
        intro a ha
        rw [decide_eq_true_eq]
        intro hae
        obtain ⟨p, hp, hps⟩ := (h2 (storeKey o)).2 ⟨hk, a, ha, hae⟩
        refine hany (List.any_eq_true.2 ⟨p, hp, ?_⟩)
        rw [decide_eq_true_eq]
        exact hps
      constructor
      · intro p hp
        rcases List.mem_append.1 hp with h | h
        · have hpk : ¬ storeKey o = p.1 := by
            intro he
            refine hany (List.any_eq_true.2 ⟨p, h, ?_⟩)
            rw [decide_eq_true_eq]
            exact he.symm
          refine ⟨(h1 p h).1, ?_⟩
          rw [List.filter_append, (h1 p h).2,
            filter_storeKey_singleton_ne hpk, List.append_nil]
        · rw [List.mem_singleton] at h
          rw [h]
          refine ⟨hk, ?_⟩
          dsimp only
          rw [List.filter_append, hnone, List.nil_append,
            filter_storeKey_singleton_eq rfl]
      · intro s
        constructor
        · rintro ⟨p, hp, hps⟩
          rcases List.mem_append.1 hp with h | h
          · have := (h2 s).1 ⟨p, h, hps⟩
            exact ⟨this.1, this.2.elim fun o' ho' =>
              ⟨o', List.mem_append_left _ ho'.1, ho'.2⟩⟩
          · rw [List.mem_singleton] at h
            rw [h] at hps
            dsimp only at hps
            exact ⟨hps ▸ hk, o,
              List.mem_append_right _ (List.mem_singleton.2 rfl), hps⟩
        · rintro ⟨hs, o', ho', hko'⟩
          rcases List.mem_append.1 ho' with h | h
          · obtain ⟨p, hp, hps⟩ := (h2 s).2 ⟨hs, o', h, hko'⟩
            exact ⟨p, List.mem_append_left _ hp, hps⟩
          · rw [List.mem_singleton] at h
            rw [h] at hko'
            exact ⟨(storeKey o, [o]),
              List.mem_append_right _ (List.mem_singleton.2 rfl), hko'⟩

lemma storeMapInv_foldl :
    ∀ (rest : List EtaOffer) (m : List (String × List EtaOffer))
      (processed : List EtaOffer), storeMapInv m processed →
      storeMapInv
        (rest.foldl
          (fun m o =>
            let store := storeKey o
            if store = "" then m else smInsert m store o) m)
        (processed ++ rest) := by
  intro rest
  induction rest with
  | nil => intro m processed hi; rw [List.append_nil]; exact hi
  | cons o rest ih =>
    intro m processed hi
    rw [List.foldl_cons]
    have hstep := storeMapInv_step o hi
    have := ih _ (processed ++ [o]) hstep
    rwa [List.append_assoc, List.singleton_append] at this

/-- Characterization of the guide route's `storeMap`: every entry's key is a
nonempty trimmed store name, and its list is exactly the input offers with
that key, in input order. -/
lemma buildStoreMap_mem {offers : List EtaOffer} {p : String × List EtaOffer}
    (hp : p ∈ buildStoreMap offers) :
    p.1 ≠ "" ∧ p.2 = offers.filter (fun o => storeKey o = p.1) := by
  have h := storeMapInv_foldl offers [] []
    ⟨fun p hp => absurd hp (List.not_mem_nil p),
     fun s => ⟨fun ⟨p, hp, _⟩ => absurd hp (List.not_mem_nil p),
       fun ⟨_, o, ho, _⟩ => absurd ho (List.not_mem_nil o)⟩⟩
  rw [List.nil_append] at h
  exact h.1 p hp

lemma perm_any_eq {α : Type} {l1 l2 : List α} (h : l1.Perm l2) (g : α → Bool) :
    l1.any g = l2.any g := by
  rcases hb : l2.any g with _ | _
  · rw [List.any_eq_false] at hb ⊢
    intro x hx
    exact hb x (h.mem_iff.1 hx)
  · rw [List.any_eq_true] at hb ⊢
    obtain ⟨x, hx, hgx⟩ := hb
    exact ⟨x, h.mem_iff.2 hx, hgx⟩

/-- The running minimum used by the `bestPrice` loop. -/
def accMin (acc : Option ℚ) (p : ℚ) : ℚ :=
  match acc with
  | none => p
  | some b => min b p

/-- The matching price an offer contributes to the `bestPrice` loop. -/
def matchPrice (queries : List String) (o : EtaOffer) : Option ℚ :=
  if queries.any (fun q => offerMatchesQuery o.name q) then o.price else none

lemma bestPriceStep_eq (queries : List String) (acc : Option ℚ) (o : EtaOffer) :
    bestPriceStep queries acc o =
      match matchPrice queries o with
      | none => acc
      | some p => some (accMin acc p) := by
  unfold bestPriceStep matchPrice accMin
  by_cases h : queries.any (fun q => offerMatchesQuery o.name q) = true
  · rw [if_pos h, if_pos h]
    rcases o.price with _ | p
    · rfl
    · rcases acc with _ | b
      · rfl
      · dsimp only
        by_cases h' : p < b
        · rw [if_pos h', min_eq_right h'.le]
        · rw [if_neg h', min_eq_left (not_lt.1 h')]
  · rw [if_neg h, if_neg h]

lemma bestPriceStep_rightComm (queries : List String) :
    ∀ (acc : Option ℚ) (o1 o2 : EtaOffer),
      bestPriceStep queries (bestPriceStep queries acc o1) o2
        = bestPriceStep queries (bestPriceStep queries acc o2) o1 := by
  intro acc o1 o2
  rw [bestPriceStep_eq, bestPriceStep_eq, bestPriceStep_eq, bestPriceStep_eq]
  rcases matchPrice queries o1 with _ | p1 <;>
    rcases matchPrice queries o2 with _ | p2 <;> dsimp only
  rcases acc with _ | b <;> unfold accMin <;> dsimp only
  · rw [min_comm]
  · rw [min_right_comm]

/-- The coverage fields of a store's row depend only on the multiset of its
offers: permuting them changes neither the matched queries, the coverage
count and percentage, nor the best price. -/
lemma makeRow_perm_fields (queries : List String) (s : String)
    {os1 os2 : List EtaOffer} (hp : os1.Perm os2) :
    (makeRow queries s os1).coverageCount = (makeRow queries s os2).coverageCount ∧
    (makeRow queries s os1).coveragePct = (makeRow queries s os2).coveragePct ∧
    (makeRow queries s os1).matchedItems = (makeRow queries s os2).matchedItems ∧
    (makeRow queries s os1).bestPrice = (makeRow queries s os2).bestPrice := by
  have hmatched :
      queries.filter (fun q => os1.any (fun o => offerMatchesQuery o.name q))
        = queries.filter (fun q => os2.any (fun o => offerMatchesQuery o.name q)) :=
    List.filter_congr (fun q _ => perm_any_eq hp _)
  have hbest : os1.foldl (bestPriceStep queries) none
      = os2.foldl (bestPriceStep queries) none := by
    haveI : RightCommutative (bestPriceStep queries) :=
      ⟨bestPriceStep_rightComm queries⟩
    exact hp.foldl_eq none
  unfold makeRow
  dsimp only
  rw [hmatched, hbest]
  exact ⟨rfl, rfl, rfl, rfl⟩

/-- Every ranked row is the row its (nonempty) store name determines: the
one computed from exactly the input offers carrying that store key. -/
lemma mem_guideStores {queries : List String} {offers : List EtaOffer}
    {r : StoreRow} (h : r ∈ guideStores queries offers) :
    r.store ≠ "" ∧
      r = makeRow queries r.store (offers.filter (fun o => storeKey o = r.store)) := by
  unfold guideStores at h
  have h2 : r ∈ List.insertionSort rowLeP (guideRows queries offers) :=
    List.take_subset _ _ h
  have h3 : r ∈ guideRows queries offers :=
    (List.perm_insertionSort rowLeP _).mem_iff.1 h2
  unfold guideRows at h3
  rcases List.mem_map.1 h3 with ⟨p, hp, hr⟩
  obtain ⟨hne, hfil⟩ := buildStoreMap_mem hp
  have hstore : r.store = p.1 := by rw [← hr]; rfl
  refine ⟨hstore ▸ hne, ?_⟩
  rw [hstore, ← hfil, ← hr]

/-- C9 amended: the per-store coverage data of the ranking is invariant
under permutation of the input Offer list — rows for the same store in the
two outputs agree on `coverageCount`, `coveragePct`, `matchedItems` and
`bestPrice`. (The full outputs can differ: `sampleOffers` tie-breaking and
row order beyond the sort keys follow input order.) -/
theorem guide_perm_store_fields_invariant (queries : List String)
    {offers1 offers2 : List EtaOffer} (hperm : offers1.Perm offers2)
    {r1 r2 : StoreRow} (h1 : r1 ∈ guideStores queries offers1)
    (h2 : r2 ∈ guideStores queries offers2) (hs : r1.store = r2.store) :
    r1.coverageCount = r2.coverageCount ∧ r1.coveragePct = r2.coveragePct ∧
    r1.matchedItems = r2.matchedItems ∧ r1.bestPrice = r2.bestPrice := by
  obtain ⟨_, he1⟩ := mem_guideStores h1
  obtain ⟨_, he2⟩ := mem_guideStores h2
  rw [hs] at he1
  have hf : (offers1.filter (fun o => storeKey o = r2.store)).Perm
      (offers2.filter (fun o => storeKey o = r2.store)) := hperm.filter _
  obtain ⟨f1, f2, f3, f4⟩ := makeRow_perm_fields queries r2.store hf
  rw [he1, he2]
  exact ⟨f1, f2, f3, f4⟩

/-- The two-offer store used in the C9 scenarios. -/
def permOffersA : List EtaOffer :=
  [mkPricedOffer "ua" "Store A" "Løg i net" 10,
   mkPricedOffer "ub" "Store A" "Løg i bakke" 10]

/-- `permOffersA` with its two offers swapped. -/
def permOffersB : List EtaOffer :=
  [mkPricedOffer "ub" "Store A" "Løg i bakke" 10,
   mkPricedOffer "ua" "Store A" "Løg i net" 10]

set_option maxHeartbeats 1600000 in
/-- C9 counterexample: the two inputs are permutations of each other, yet
the ranked outputs differ — the `sampleOffers` of the single store list its
two price-tied offers in input order, so the rows are not identical. -/
theorem guide_perm_not_invariant_counterexample :
    permOffersA.Perm permOffersB ∧
    guideStores ["løg"] permOffersA ≠ guideStores ["løg"] permOffersB := by
  have hproj :
      (guideStores ["løg"] permOffersA).map (fun r => r.sampleOffers.map (·.name))
        ≠ (guideStores ["løg"] permOffersB).map (fun r => r.sampleOffers.map (·.name)) := by
    decide
  exact ⟨by decide, fun h => hproj (by rw [h])⟩

/-- Witness for C9 amended: the swapped pair of offers yields rows for
`"Store A"` agreeing on all four coverage fields. -/
theorem guide_perm_store_fields_invariant_witness :
    permOffersA.Perm permOffersB ∧
    ((guideStores ["løg"] permOffersA).get ⟨0, by decide⟩
        ∈ guideStores ["løg"] permOffersA) ∧
    (((guideStores ["løg"] permOffersA).get ⟨0, by decide⟩).coverageCount
        = ((guideStores ["løg"] permOffersB).get ⟨0, by decide⟩).coverageCount ∧
      ((guideStores ["løg"] permOffersA).get ⟨0, by decide⟩).coveragePct
        = ((guideStores ["løg"] permOffersB).get ⟨0, by decide⟩).coveragePct ∧
      ((guideStores ["løg"] permOffersA).get ⟨0, by decide⟩).matchedItems
        = ((guideStores ["løg"] permOffersB).get ⟨0, by decide⟩).matchedItems ∧
      ((guideStores ["løg"] permOffersA).get ⟨0, by decide⟩).bestPrice
        = ((guideStores ["løg"] permOffersB).get ⟨0, by decide⟩).bestPrice) :=
  ⟨by decide, List.get_mem _ 0 (by decide),
    guide_perm_store_fields_invariant ["løg"]
      (show permOffersA.Perm permOffersB by decide)
      (List.get_mem (guideStores ["løg"] permOffersA) 0 (by decide))
      (List.get_mem (guideStores ["løg"] permOffersB) 0 (by decide))
      (by decide)⟩

end Foodfolder
